import Mathlib

/-!
A shallow embedding of the state synchronizer in `p2p/state.py`
(`StateDownloader` and `StateSync`), together with proofs of the spec claims
about it.

Modelling conventions:
* `Hash` is `Nat` (a 32-byte keccak digest read as a number), `Blob` is
  `List Nat` (the raw bytes of a node).
* Timestamps (`time.time()`) are `Int`.
* Python dicts (`_pending_nodes`, `_peers_with_pending_requests`) are
  association lists with dict semantics: `insertA` updates in place or
  appends, `eraseA` is `pop`, `lookupA` is `get`.
* `keccak` is passed as an explicit function parameter: the claims hold for
  every hash function, and witnesses instantiate it with a small computable
  stand-in.
* Synchronous, single-tasked control flow is modelled by plain state-passing
  functions; an `await` that can block forever (no idle peer) is modelled by
  an `Option` result, `none` meaning the operation has not completed.
-/

set_option linter.unusedSectionVars false

namespace PyEvmStateSync

/-- 32-byte keccak digests, read as numbers. -/
abbrev Hash := Nat

/-- Raw node bytes. -/
abbrev Blob := List Nat

/-- `eth.MAX_STATE_FETCH`: maximum number of hashes per `GetNodeData` batch. -/
def MAX_STATE_FETCH : Nat := 384

/-- `StateDownloader._reply_timeout` (seconds). -/
def reply_timeout : Int := 20

/-- `evm.constants.BLANK_ROOT_HASH = the keccak hash of the rlp of empty bytes`, the empty trie root. -/
def BLANK_ROOT_HASH : Hash :=
  0x56e81f171bcc55a6ff8345e692c0f86e5b48e01b996cadc001622fb5e363b421

/-- `evm.constants.EMPTY_SHA3 = the keccak hash of empty bytes`, the hash of empty code. -/
def EMPTY_SHA3 : Hash :=
  0xc5d2460186f7233c927e7db2dcc703c0e500b653ca82273b7bfad8045d85a470

section AssocMapDefs

variable {α : Type} {β : Type} [DecidableEq α]

/-- Dict lookup: first entry with the given key. -/
def lookupA (k : α) : List (α × β) → Option β
  | [] => none
  | (a, b) :: t => if a = k then some b else lookupA k t

/-- Dict write `d[k] = v`: update in place when the key is present,
otherwise append. -/
def insertA (k : α) (v : β) : List (α × β) → List (α × β)
  | [] => [(k, v)]
  | (a, b) :: t => if a = k then (a, v) :: t else (a, b) :: insertA k v t

/-- Dict `pop(k, None)`: drop the entry with the given key when present. -/
def eraseA (k : α) : List (α × β) → List (α × β)
  | [] => []
  | (a, b) :: t => if a = k then t else (a, b) :: eraseA k t

/-- `d[k] = v` for every `k` in a list, with the same value (the dispatcher
stamps a whole batch with one `now`). -/
def write_all (ks : List α) (v : β) (m : List (α × β)) : List (α × β) :=
  ks.foldl (fun m k => insertA k v m) m

/-- Erase every key in a list (the reply handler pops each received hash). -/
def erase_all (ks : List α) (m : List (α × β)) : List (α × β) :=
  ks.foldl (fun m k => eraseA k m) m

end AssocMapDefs

/-! ### The account leaf callback (`StateSync.leaf_callback`) -/

/-- Modelled from the spec: the account record decoded by
`rlp.decode(data, sedes=Account)` (the `Account` sedes lives in
`evm.rlp.accounts`, outside this source tree). Per §4.1 it carries
`{nonce, balance, storage_root, code_hash}`. -/
structure Account where
  nonce : Nat
  balance : Nat
  storage_root : Hash
  code_hash : Hash
deriving DecidableEq

/-- One call to `HexaryTrieSync.schedule(node_key, parent, depth,
leaf_callback, is_raw)`, as issued by `StateSync.leaf_callback`. The parent
leaf is identified by a `Hash`; `has_leaf_cb` records whether a leaf
callback was attached (the source always passes `leaf_callback=None`). -/
structure ScheduleCall where
  node_key : Hash
  parent : Hash
  depth : Nat
  has_leaf_cb : Bool
  is_raw : Bool
deriving DecidableEq

/-- `StateSync.leaf_callback`, after the rlp decode: with `depth = 64`,
schedule the storage root when it is not the blank root, then the code hash
(`is_raw=True`) when it is not the empty-code hash. `is_raw` defaults to
`False` in `schedule`, so the storage request is not raw. -/
def leaf_callback (account : Account) (parent : Hash) : List ScheduleCall :=
  (if account.storage_root ≠ BLANK_ROOT_HASH then
    [⟨account.storage_root, parent, 64, false, false⟩]
  else []) ++
  (if account.code_hash ≠ EMPTY_SHA3 then
    [⟨account.code_hash, parent, 64, false, true⟩]
  else [])

/-- The storage-root request the callback would issue for an account. -/
def storage_call (account : Account) (parent : Hash) : ScheduleCall :=
  ⟨account.storage_root, parent, 64, false, false⟩

/-- The code-hash request the callback would issue for an account. -/
def code_call (account : Account) (parent : Hash) : ScheduleCall :=
  ⟨account.code_hash, parent, 64, false, true⟩

/-! ### Worker pool sizing (`StateDownloader.__init__`) -/

/-- The `max_workers` argument the constructor passes to
`ProcessPoolExecutor`: `1` when `os.cpu_count()` is `None` (indeterminable),
otherwise `os.cpu_count() - 1`. -/
def cpu_worker_count : Option Nat → Nat
  | none => 1
  | some n => n - 1

/-- The worker count the spec prescribes: `max(1, logical_cpus - 1)`, and at
least one worker when the CPU count is indeterminable. -/
def spec_worker_count : Option Nat → Nat
  | none => 1
  | some n => max 1 (n - 1)

/-! ### The scheduler interface (`trie.sync.HexaryTrieSync`) -/

/-- The scheduler state the downloader observes: the set of scheduled,
not-yet-committed request hashes, plus the committed nodes. -/
structure Sched where
  requests : List Hash
  committed : List (Hash × Blob)
deriving DecidableEq

/-- Outcome of one `scheduler.process([(node_key, node)])` call. -/
inductive ProcOutcome
  | ok (s : Sched)
  | alreadyProcessed
  | badNode
deriving DecidableEq

/-- Modelled from the spec: `HexaryTrieSync.process` for a single item (the
`trie` library is not part of this source tree). Per §4.1: verify
`keccak256(bytes) == H`, failing with `BadNode` on a mismatch; fail with
`AlreadyProcessed` when `H` is not among the scheduled requests; otherwise
accept the data. Child expansion and deferred commits are elided — the
claims settled against this model depend only on which failure is raised
and on the request-set membership test. -/
def schedProcessOne (keccak : Blob → Hash) (s : Sched) (k : Hash) (b : Blob) :
    ProcOutcome :=
  if keccak b ≠ k then .badNode
  else if k ∈ s.requests then
    .ok ⟨s.requests.erase k, s.committed ++ [(k, b)]⟩
  else .alreadyProcessed

/-- The `try: process ... except SyncRequestAlreadyProcessed: pass` block of
`_handle_msg`: `AlreadyProcessed` is swallowed (state unchanged), any other
exception propagates out of the handler (`none`). -/
def process_swallowed (keccak : Blob → Hash) (s : Sched) (k : Hash) (b : Blob) :
    Option Sched :=
  match schedProcessOne keccak s k b with
  | .ok s' => some s'
  | .alreadyProcessed => some s
  | .badNode => none

/-! ### Downloader state and the reply handler (`StateDownloader._handle_msg`) -/

section DownloaderDefs

variable {Peer : Type} [DecidableEq Peer]

/-- The mutable state of a `StateDownloader`: `_pending_nodes` (in-flight
table), `_peers_with_pending_requests` (peer-busy table), the scheduler, and
the two progress counters. -/
structure DState (Peer : Type) where
  pending : List (Hash × Int)
  busy : List (Peer × Int)
  sched : Sched
  totalProcessedNodes : Nat
  totalTimeouts : Nat
deriving DecidableEq

/-- An inbound message's command: `eth.NodeData` with its payload, or any
other command (tagged, so that there are many of them). -/
inductive Cmd
  | nodeData (payload : List Blob)
  | other (tag : Nat)
deriving DecidableEq

/-- The body of the `for node_key, node in zip(node_keys, msg)` loop of
`_handle_msg`: per blob, bump `_total_processed_nodes`, call
`scheduler.process([(keccak(node), node)])` swallowing `AlreadyProcessed`,
and `pop` the key from `_pending_nodes` (absence tolerated). The returned
trace lists the `(node_key, node)` pairs passed to `process`, in order, one
pair per call. -/
def node_data_loop (keccak : Blob → Hash) :
    DState Peer → List Blob → Option (DState Peer × List (Hash × Blob))
  | st, [] => some (st, [])
  | st, b :: bs =>
    let k := keccak b
    let st1 : DState Peer :=
      { st with totalProcessedNodes := st.totalProcessedNodes + 1 }
    match process_swallowed keccak st1.sched k b with
    | none => none
    | some s' =>
      match node_data_loop keccak
          { st1 with sched := s', pending := eraseA k st1.pending } bs with
      | none => none
      | some (stf, calls) => some (stf, (k, b) :: calls)

/-- `StateDownloader._handle_msg`: for `NodeData`, pop the peer from the
busy table when present, then run the per-blob loop; every other command is
ignored. `none` models an exception escaping the handler. -/
def handle_msg (keccak : Blob → Hash) (st : DState Peer) (peer : Peer)
    (cmd : Cmd) : Option (DState Peer × List (Hash × Blob)) :=
  match cmd with
  | .nodeData blobs =>
    node_data_loop keccak { st with busy := eraseA peer st.busy } blobs
  | .other _ => some (st, [])

/-! ### Peer selection (`idle_peers` / `get_idle_peer`) -/

/-- `StateDownloader.idle_peers`: the subscribed peers minus those with an
entry in the peer-busy table. -/
def idle_peers (pool : List Peer) (busy : List (Peer × Int)) : List Peer :=
  pool.filter (fun p => (lookupA p busy).isNone)

/-- `StateDownloader.get_idle_peer`: cooperatively blocks while
`idle_peers` is empty (modelled by `none`), then returns a randomly chosen
idle peer (`secrets.choice`, modelled by an index supplied by the caller's
random source). -/
def get_idle_peer (pool : List Peer) (busy : List (Peer × Int)) (rng : Nat) :
    Option Peer :=
  match idle_peers pool busy with
  | [] => none
  | p :: ps => some ((p :: ps).get ⟨rng % (ps.length + 1), Nat.mod_lt _ (Nat.succ_pos _)⟩)

end DownloaderDefs

/-! ### Batching (`cytoolz.itertoolz.partition_all`) -/

section ChunkDefs

variable {α : Type}

/-- Fuel-driven worker for `partition_all`; `partition_all` always supplies
enough fuel (the list's length), so the zero-fuel branch is unreachable. -/
def chunk_go (n : Nat) : Nat → List α → List (List α)
  | _, [] => []
  | 0, _ :: _ => []
  | fuel + 1, x :: xs => (x :: xs.take (n - 1)) :: chunk_go n fuel (xs.drop (n - 1))

/-- `cytoolz.itertoolz.partition_all(n, l)`: split `l` into consecutive
chunks of exactly `n` items, the last chunk possibly shorter. -/
def partition_all (n : Nat) (l : List α) : List (List α) :=
  chunk_go n l.length l

end ChunkDefs

/-! ### The request dispatcher (`StateDownloader.request_nodes`) -/

section DispatcherDefs

variable {Peer : Type} [DecidableEq Peer]

/-- One `peer.sub_proto.send_get_node_data(batch)` call. -/
structure SentMsg (Peer : Type) where
  peer : Peer
  batch : List Hash
deriving DecidableEq

/-- The dispatcher's loop over the batches: per batch, await an idle peer
(`none` if that await can never complete), take `now` from the clock, stamp
every hash of the batch in `_pending_nodes` with `now`, send the batch, and
stamp the peer busy with the same `now`. `rng i` and `timeAt i` are the
random draw and the clock reading seen by batch `i`. -/
def dispatch_go (pool : List Peer) (rng : Nat → Nat) (timeAt : Nat → Int) :
    Nat → DState Peer → List (List Hash) → Option (DState Peer × List (SentMsg Peer))
  | _, st, [] => some (st, [])
  | i, st, batch :: rest =>
    match get_idle_peer pool st.busy (rng i) with
    | none => none
    | some peer =>
      let now := timeAt i
      let st1 : DState Peer :=
        { st with
            pending := write_all batch now st.pending,
            busy := insertA peer now st.busy }
      match dispatch_go pool rng timeAt (i + 1) st1 rest with
      | none => none
      | some (stf, msgs) => some (stf, ⟨peer, batch⟩ :: msgs)

/-- `StateDownloader.request_nodes`: partition the hashes into batches of at
most `MAX_STATE_FETCH` and dispatch each batch to an idle peer. -/
def request_nodes (pool : List Peer) (rng : Nat → Nat) (timeAt : Nat → Int)
    (st : DState Peer) (node_keys : List Hash) :
    Option (DState Peer × List (SentMsg Peer)) :=
  dispatch_go pool rng timeAt 0 st (partition_all MAX_STATE_FETCH node_keys)

/-- A trace of a completed dispatch loop starting at batch index `i`: each
sent message went to a peer that was idle at its selection moment, and the
batch's hashes and the chosen peer were stamped with that batch's clock
reading, the in-flight stamps being written before the message is sent. -/
inductive DispatchRun (pool : List Peer) (rng : Nat → Nat) (timeAt : Nat → Int) :
    DState Peer → Nat → List (SentMsg Peer) → DState Peer → Prop
  | nil (st : DState Peer) (i : Nat) : DispatchRun pool rng timeAt st i [] st
  | cons (st : DState Peer) (i : Nat) (peer : Peer) (batch : List Hash)
      (stMid stFin : DState Peer) (msgs : List (SentMsg Peer))
      (hidle : peer ∈ idle_peers pool st.busy)
      (hmid : stMid =
        { st with
            pending := write_all batch (timeAt i) st.pending,
            busy := insertA peer (timeAt i) st.busy })
      (hpend : ∀ k, k ∈ batch → lookupA k stMid.pending = some (timeAt i))
      (hbusy : lookupA peer stMid.busy = some (timeAt i))
      (hrest : DispatchRun pool rng timeAt stMid (i + 1) msgs stFin) :
      DispatchRun pool rng timeAt st i (⟨peer, batch⟩ :: msgs) stFin

end DispatcherDefs

/-! ### The timeout sweeper (`StateDownloader._periodically_retry_timedout`),
one pass of its loop -/

section SweeperDefs

variable {Peer : Type} [DecidableEq Peer]

/-- The first loop of a sweeper pass: pop every peer-busy entry whose
request is older than `_reply_timeout`, i.e. keep exactly the entries with
`now - last_req_time ≤ _reply_timeout`. -/
def sweep_busy (now : Int) (busy : List (Peer × Int)) : List (Peer × Int) :=
  busy.filter (fun pt => decide (now - pt.2 ≤ reply_timeout))

/-- The second loop of a sweeper pass: the in-flight keys whose request is
older than `_reply_timeout`, in table order. -/
def timed_out (now : Int) (pending : List (Hash × Int)) : List Hash :=
  (pending.filter (fun kt => decide (reply_timeout < now - kt.2))).map Prod.fst

/-- One pass of `_periodically_retry_timedout`: sweep the peer-busy table,
collect the timed-out in-flight keys, and when there are any, add their
number to `_total_timeouts` and re-dispatch them through `request_nodes`.
(The final adaptive sleep carries no state and is not modelled.) -/
def retry_timedout_pass (pool : List Peer) (rng : Nat → Nat)
    (timeAt : Nat → Int) (now : Int) (st : DState Peer) :
    Option (DState Peer × List (SentMsg Peer)) :=
  let st1 : DState Peer := { st with busy := sweep_busy now st.busy }
  let tk := timed_out now st.pending
  if tk = [] then some (st1, [])
  else
    request_nodes pool rng timeAt
      { st1 with totalTimeouts := st1.totalTimeouts + tk.length } tk

end SweeperDefs

/-! ### Helper lemmas -/

section AssocMapLemmas

variable {α : Type} {β : Type} [DecidableEq α]

theorem lookupA_insertA_self (k : α) (v : β) :
    ∀ m : List (α × β), lookupA k (insertA k v m) = some v := by
  intro m
  induction m with
  | nil => simp [insertA, lookupA]
  | cons hd t ih =>
    obtain ⟨a, b⟩ := hd
    by_cases h : a = k <;> simp [insertA, lookupA, h, ih]

theorem lookupA_insertA_ne (k k' : α) (v : β) (h : k' ≠ k) :
    ∀ m : List (α × β), lookupA k' (insertA k v m) = lookupA k' m := by
  intro m
  induction m with
  | nil => simp [insertA, lookupA, Ne.symm h]
  | cons hd t ih =>
    obtain ⟨a, b⟩ := hd
    by_cases ha : a = k <;> by_cases ha' : a = k' <;>
      simp_all [insertA, lookupA]

theorem lookupA_eraseA_ne (k k' : α) (h : k' ≠ k) :
    ∀ m : List (α × β), lookupA k' (eraseA k m) = lookupA k' m := by
  intro m
  induction m with
  | nil => simp [eraseA]
  | cons hd t ih =>
    obtain ⟨a, b⟩ := hd
    by_cases ha : a = k <;> by_cases ha' : a = k' <;>
      simp_all [eraseA, lookupA]

theorem lookupA_eraseA_self (k : α) :
    ∀ m : List (α × β), (m.map Prod.fst).Nodup →
      lookupA k (eraseA k m) = none := by
  intro m
  induction m with
  | nil => intro _; simp [eraseA, lookupA]
  | cons hd t ih =>
    obtain ⟨a, b⟩ := hd
    intro hnd
    simp only [List.map_cons, List.nodup_cons] at hnd
    by_cases ha : a = k
    · subst ha
      simp only [eraseA, if_pos rfl]
      -- `a` does not occur among the tail's keys, so the lookup misses.
      clear ih
      induction t with
      | nil => simp [lookupA]
      | cons hd' t' ih' =>
        obtain ⟨a', b'⟩ := hd'
        simp only [List.map_cons, List.mem_cons, List.nodup_cons] at hnd
        have hne : a' ≠ a := fun h => hnd.1 (Or.inl h.symm)
        simp only [lookupA, if_neg hne]
        exact ih' ⟨fun h => hnd.1 (Or.inr h), hnd.2.2⟩
    · simp only [eraseA, if_neg ha, lookupA, if_neg ha]
      exact ih hnd.2

theorem lookupA_none_eraseA (k k' : α) :
    ∀ m : List (α × β), lookupA k m = none → lookupA k (eraseA k' m) = none := by
  intro m
  induction m with
  | nil => intro _; simp [eraseA, lookupA]
  | cons hd t ih =>
    obtain ⟨a, b⟩ := hd
    intro h
    simp only [lookupA] at h
    by_cases hak : a = k
    · simp [hak] at h
    · simp only [if_neg hak] at h
      by_cases hak' : a = k'
      · simp only [eraseA, if_pos hak']
        exact h
      · simp only [eraseA, if_neg hak', lookupA, if_neg hak]
        exact ih h

theorem eraseA_keys_nodup (k : α) :
    ∀ m : List (α × β), (m.map Prod.fst).Nodup →
      ((eraseA k m).map Prod.fst).Nodup := by
  intro m
  induction m with
  | nil => intro _; simp [eraseA]
  | cons hd t ih =>
    obtain ⟨a, b⟩ := hd
    intro hnd
    simp only [List.map_cons, List.nodup_cons] at hnd
    by_cases ha : a = k
    · simp only [eraseA, if_pos ha]
      exact hnd.2
    · simp only [eraseA, if_neg ha, List.map_cons, List.nodup_cons]
      refine ⟨fun hmem => ?_, ih hnd.2⟩
      obtain ⟨⟨a', b'⟩, hmem', heq⟩ := List.mem_map.mp hmem
      -- an entry of `eraseA k t` is an entry of `t`
      have hsub : ∀ x : α × β, x ∈ eraseA k t → x ∈ t := by
        clear hmem hmem' heq ih hnd
        induction t with
        | nil => intro x hx; simp [eraseA] at hx
        | cons hd' t' ih' =>
          obtain ⟨c, d⟩ := hd'
          intro x hx
          by_cases hc : c = k
          · simp only [eraseA, if_pos hc] at hx
            exact List.mem_cons_of_mem _ hx
          · simp only [eraseA, if_neg hc, List.mem_cons] at hx
            rcases hx with hx | hx
            · exact hx ▸ List.mem_cons_self _ _
            · exact List.mem_cons_of_mem _ (ih' x hx)
      exact hnd.1 (heq ▸ List.mem_map_of_mem Prod.fst (hsub _ hmem'))

theorem lookupA_write_all_not_mem (k : α) (v : β) :
    ∀ (ks : List α) (m : List (α × β)), k ∉ ks →
      lookupA k (write_all ks v m) = lookupA k m := by
  intro ks
  induction ks with
  | nil => intro m _; rfl
  | cons a t ih =>
    intro m hk
    simp only [List.mem_cons, not_or] at hk
    simp only [write_all, List.foldl_cons]
    have := ih (insertA a v m) hk.2
    simp only [write_all] at this
    rw [this, lookupA_insertA_ne a k v hk.1]

theorem lookupA_write_all_mem (k : α) (v : β) :
    ∀ (ks : List α) (m : List (α × β)), k ∈ ks →
      lookupA k (write_all ks v m) = some v := by
  intro ks
  induction ks with
  | nil => intro m h; simp at h
  | cons a t ih =>
    intro m hk
    simp only [write_all, List.foldl_cons]
    by_cases hmem : k ∈ t
    · have := ih (insertA a v m) hmem
      simpa [write_all] using this
    · rcases List.mem_cons.mp hk with h | h
      · subst h
        have := lookupA_write_all_not_mem k v t (insertA k v m) hmem
        simp only [write_all] at this
        rw [show t.foldl (fun m k => insertA k v m) (insertA k v m)
              = write_all t v (insertA k v m) from rfl,
            lookupA_write_all_not_mem k v t _ hmem,
            lookupA_insertA_self]
      · exact absurd h hmem

theorem lookupA_erase_all_not_mem (k : α) :
    ∀ (ks : List α) (m : List (α × β)), k ∉ ks →
      lookupA k (erase_all ks m) = lookupA k m := by
  intro ks
  induction ks with
  | nil => intro m _; rfl
  | cons a t ih =>
    intro m hk
    simp only [List.mem_cons, not_or] at hk
    simp only [erase_all, List.foldl_cons]
    have := ih (eraseA a m) hk.2
    simp only [erase_all] at this
    rw [this, lookupA_eraseA_ne a k hk.1]

theorem erase_all_keys_nodup (ks : List α) :
    ∀ m : List (α × β), (m.map Prod.fst).Nodup →
      ((erase_all ks m).map Prod.fst).Nodup := by
  induction ks with
  | nil => intro m h; exact h
  | cons a t ih =>
    intro m hnd
    simp only [erase_all, List.foldl_cons]
    exact ih (eraseA a m) (eraseA_keys_nodup a m hnd)

theorem lookupA_erase_all_mem (k : α) :
    ∀ (ks : List α) (m : List (α × β)), (m.map Prod.fst).Nodup → k ∈ ks →
      lookupA k (erase_all ks m) = none := by
  intro ks
  induction ks with
  | nil => intro m _ h; simp at h
  | cons a t ih =>
    intro m hnd hk
    simp only [erase_all, List.foldl_cons]
    by_cases hmem : k ∈ t
    · have := ih (eraseA a m) (eraseA_keys_nodup a m hnd) hmem
      simpa [erase_all] using this
    · rcases List.mem_cons.mp hk with h | h
      · subst h
        have hnone : lookupA k (eraseA k m) = none := lookupA_eraseA_self k m hnd
        -- erasing further keys never resurrects an absent key
        have : ∀ (ts : List α) (m' : List (α × β)), lookupA k m' = none →
            lookupA k (erase_all ts m') = none := by
          intro ts
          induction ts with
          | nil => intro m' h'; exact h'
          | cons c cs ihc =>
            intro m' h'
            simp only [erase_all, List.foldl_cons]
            have := ihc (eraseA c m') (lookupA_none_eraseA k c m' h')
            simpa [erase_all] using this
        have hres := this t (eraseA k m) hnone
        simpa [erase_all] using hres
      · exact absurd h hmem

end AssocMapLemmas

section DownloaderLemmas

variable {Peer : Type} [DecidableEq Peer]

/-- The key passed to `process` is the blob's own keccak hash, so the
`BadNode` branch is unreachable and the call either commits (hash was
scheduled) or raises the swallowed `AlreadyProcessed`. -/
theorem process_swallowed_self (keccak : Blob → Hash) (s : Sched) (b : Blob) :
    process_swallowed keccak s (keccak b) b =
      (if keccak b ∈ s.requests then
        some ⟨s.requests.erase (keccak b), s.committed ++ [(keccak b, b)]⟩
      else some s) := by
  by_cases hm : keccak b ∈ s.requests
  · have h : schedProcessOne keccak s (keccak b) b =
        .ok ⟨s.requests.erase (keccak b), s.committed ++ [(keccak b, b)]⟩ := by
      unfold schedProcessOne
      rw [if_neg (by simp), if_pos hm]
    unfold process_swallowed
    rw [h, if_pos hm]
  · have h : schedProcessOne keccak s (keccak b) b = .alreadyProcessed := by
      unfold schedProcessOne
      rw [if_neg (by simp), if_neg hm]
    unfold process_swallowed
    rw [h, if_neg hm]

theorem node_data_loop_cons (keccak : Blob → Hash) (st : DState Peer)
    (b : Blob) (bs : List Blob) :
    node_data_loop keccak st (b :: bs) =
      (match process_swallowed keccak st.sched (keccak b) b with
       | none => none
       | some s' =>
         match node_data_loop keccak
             { st with
                totalProcessedNodes := st.totalProcessedNodes + 1,
                sched := s',
                pending := eraseA (keccak b) st.pending } bs with
         | none => none
         | some (stf, calls) => some (stf, (keccak b, b) :: calls)) := rfl

/-- Characterization of the per-blob loop: it always succeeds, passes every
blob to the scheduler keyed by its own keccak hash (in order), leaves the
busy table and the timeout counter alone, bumps the processed counter once
per blob, and pops exactly the received hashes from the in-flight table. -/
theorem node_data_loop_spec (keccak : Blob → Hash) :
    ∀ (bs : List Blob) (st : DState Peer),
      ∃ stf calls,
        node_data_loop keccak st bs = some (stf, calls) ∧
        calls = bs.map (fun b => (keccak b, b)) ∧
        stf.busy = st.busy ∧
        stf.totalTimeouts = st.totalTimeouts ∧
        stf.totalProcessedNodes = st.totalProcessedNodes + bs.length ∧
        stf.pending = erase_all (bs.map keccak) st.pending := by
  intro bs
  induction bs with
  | nil =>
    intro st
    exact ⟨st, [], rfl, rfl, rfl, rfl, rfl, rfl⟩
  | cons b t ih =>
    intro st
    by_cases hm : keccak b ∈ st.sched.requests
    · obtain ⟨stf, calls, h1, h2, h3, h4, h5, h6⟩ :=
        ih { st with
              totalProcessedNodes := st.totalProcessedNodes + 1,
              sched := ⟨st.sched.requests.erase (keccak b),
                st.sched.committed ++ [(keccak b, b)]⟩,
              pending := eraseA (keccak b) st.pending }
      refine ⟨stf, (keccak b, b) :: calls, ?_, ?_, ?_, ?_, ?_, ?_⟩
      · rw [node_data_loop_cons]
        simp only [process_swallowed_self, if_pos hm, h1]
      · simp [h2]
      · simpa using h3
      · simpa using h4
      · simp only [h5, List.length_cons]
        omega
      · simp only [h6, List.map_cons, erase_all, List.foldl_cons]
    · obtain ⟨stf, calls, h1, h2, h3, h4, h5, h6⟩ :=
        ih { st with
              totalProcessedNodes := st.totalProcessedNodes + 1,
              sched := st.sched,
              pending := eraseA (keccak b) st.pending }
      refine ⟨stf, (keccak b, b) :: calls, ?_, ?_, ?_, ?_, ?_, ?_⟩
      · rw [node_data_loop_cons]
        simp only [process_swallowed_self, if_neg hm, h1]
      · simp [h2]
      · simpa using h3
      · simpa using h4
      · simp only [h5, List.length_cons]
        omega
      · simp only [h6, List.map_cons, erase_all, List.foldl_cons]

theorem get_idle_peer_mem (pool : List Peer) (busy : List (Peer × Int))
    (rng : Nat) (p : Peer) (h : get_idle_peer pool busy rng = some p) :
    p ∈ idle_peers pool busy := by
  unfold get_idle_peer at h
  split at h
  · exact absurd h (by simp)
  · rename_i q qs heq
    rw [heq]
    injection h with h
    rw [← h]
    exact List.get_mem _ _ _

end DownloaderLemmas

section ChunkLemmas

variable {α : Type}

theorem chunk_go_congr (n : Nat) :
    ∀ (f1 f2 : Nat) (l : List α), l.length ≤ f1 → l.length ≤ f2 →
      chunk_go n f1 l = chunk_go n f2 l := by
  intro f1
  induction f1 with
  | zero =>
    intro f2 l h1 _
    have : l = [] := List.eq_nil_of_length_eq_zero (Nat.le_zero.mp h1)
    subst this
    cases f2 <;> rfl
  | succ f ih =>
    intro f2 l h1 h2
    cases l with
    | nil => cases f2 <;> rfl
    | cons x xs =>
      cases f2 with
      | zero => simp at h2
      | succ g =>
        simp only [chunk_go]
        congr 1
        apply ih
        · have : (xs.drop (n - 1)).length ≤ xs.length := by
            rw [List.length_drop]; omega
          simp only [List.length_cons] at h1
          omega
        · have : (xs.drop (n - 1)).length ≤ xs.length := by
            rw [List.length_drop]; omega
          simp only [List.length_cons] at h2
          omega

theorem partition_all_nil (n : Nat) : partition_all n ([] : List α) = [] := rfl

theorem partition_all_cons (n : Nat) (x : α) (xs : List α) :
    partition_all n (x :: xs) =
      (x :: xs.take (n - 1)) :: partition_all n (xs.drop (n - 1)) := by
  show chunk_go n (xs.length + 1) (x :: xs) = _
  simp only [chunk_go]
  congr 1
  apply chunk_go_congr
  · rw [List.length_drop]; omega
  · exact Nat.le_refl _

theorem join_partition_all (n : Nat) :
    ∀ l : List α, (partition_all n l).flatten = l
  | [] => rfl
  | x :: xs => by
    rw [partition_all_cons]
    have ih := join_partition_all n (xs.drop (n - 1))
    simp only [List.flatten_cons, ih, List.cons_append]
    rw [List.take_append_drop]
termination_by l => l.length
decreasing_by simp [List.length_drop]; omega

theorem length_le_of_mem_partition_all (n : Nat) (hn : 0 < n) :
    ∀ (l : List α) (b : List α), b ∈ partition_all n l → b.length ≤ n
  | [], b => by simp [partition_all_nil]
  | x :: xs, b => by
    rw [partition_all_cons]
    intro hb
    rcases List.mem_cons.mp hb with h | h
    · subst h
      simp only [List.length_cons]
      have := List.length_take_le (n - 1) xs
      omega
    · exact length_le_of_mem_partition_all n hn (xs.drop (n - 1)) b h
termination_by l => l.length
decreasing_by simp [List.length_drop]; omega

theorem mem_of_mem_partition_all (n : Nat) (l : List α) (b : List α)
    (hb : b ∈ partition_all n l) : ∀ k, k ∈ b → k ∈ l := by
  intro k hk
  have : k ∈ (partition_all n l).flatten := List.mem_flatten.mpr ⟨b, hb, hk⟩
  rwa [join_partition_all] at this

end ChunkLemmas

section DispatcherLemmas

variable {Peer : Type} [DecidableEq Peer]

theorem dispatch_go_cons (pool : List Peer) (rng : Nat → Nat)
    (timeAt : Nat → Int) (i : Nat) (st : DState Peer) (batch : List Hash)
    (rest : List (List Hash)) :
    dispatch_go pool rng timeAt i st (batch :: rest) =
      (match get_idle_peer pool st.busy (rng i) with
       | none => none
       | some peer =>
         match dispatch_go pool rng timeAt (i + 1)
             { st with
                 pending := write_all batch (timeAt i) st.pending,
                 busy := insertA peer (timeAt i) st.busy } rest with
         | none => none
         | some (stf, msgs) => some (stf, ⟨peer, batch⟩ :: msgs)) := rfl

theorem dispatch_go_run (pool : List Peer) (rng : Nat → Nat) (timeAt : Nat → Int) :
    ∀ (bs : List (List Hash)) (i : Nat) (st stf : DState Peer)
      (msgs : List (SentMsg Peer)),
      dispatch_go pool rng timeAt i st bs = some (stf, msgs) →
      DispatchRun pool rng timeAt st i msgs stf ∧
      msgs.map SentMsg.batch = bs := by
  intro bs
  induction bs with
  | nil =>
    intro i st stf msgs h
    simp only [dispatch_go, Option.some.injEq, Prod.mk.injEq] at h
    obtain ⟨h1, h2⟩ := h
    subst h1
    subst h2
    exact ⟨DispatchRun.nil st i, rfl⟩
  | cons batch rest ih =>
    intro i st stf msgs h
    rw [dispatch_go_cons] at h
    rcases hp : get_idle_peer pool st.busy (rng i) with _ | peer
    · simp [hp] at h
    · simp only [hp] at h
      rcases hd : dispatch_go pool rng timeAt (i + 1)
          { st with
              pending := write_all batch (timeAt i) st.pending,
              busy := insertA peer (timeAt i) st.busy } rest with _ | res
      · simp [hd] at h
      · obtain ⟨stMid', msgs'⟩ := res
        simp only [hd, Option.some.injEq, Prod.mk.injEq] at h
        obtain ⟨h1, h2⟩ := h
        subst h1
        subst h2
        obtain ⟨hrun, hbatches⟩ := ih (i + 1) _ _ _ hd
        refine ⟨DispatchRun.cons st i peer batch _ _ msgs' ?_ rfl ?_ ?_ hrun, ?_⟩
        · exact get_idle_peer_mem pool st.busy (rng i) peer hp
        · intro k hk
          exact lookupA_write_all_mem k (timeAt i) batch st.pending hk
        · exact lookupA_insertA_self peer (timeAt i) st.busy
        · simp [hbatches]

theorem dispatch_go_counters (pool : List Peer) (rng : Nat → Nat)
    (timeAt : Nat → Int) :
    ∀ (bs : List (List Hash)) (i : Nat) (st stf : DState Peer)
      (msgs : List (SentMsg Peer)),
      dispatch_go pool rng timeAt i st bs = some (stf, msgs) →
      stf.sched = st.sched ∧
      stf.totalProcessedNodes = st.totalProcessedNodes ∧
      stf.totalTimeouts = st.totalTimeouts := by
  intro bs
  induction bs with
  | nil =>
    intro i st stf msgs h
    simp only [dispatch_go, Option.some.injEq, Prod.mk.injEq] at h
    obtain ⟨h1, _⟩ := h
    subst h1
    exact ⟨rfl, rfl, rfl⟩
  | cons batch rest ih =>
    intro i st stf msgs h
    rw [dispatch_go_cons] at h
    rcases hp : get_idle_peer pool st.busy (rng i) with _ | peer
    · simp [hp] at h
    · simp only [hp] at h
      rcases hd : dispatch_go pool rng timeAt (i + 1)
          { st with
              pending := write_all batch (timeAt i) st.pending,
              busy := insertA peer (timeAt i) st.busy } rest with _ | res
      · simp [hd] at h
      · obtain ⟨stMid', msgs'⟩ := res
        simp only [hd, Option.some.injEq, Prod.mk.injEq] at h
        obtain ⟨h1, _⟩ := h
        subst h1
        have h3 := ih (i + 1) _ _ _ hd
        exact h3

theorem dispatch_go_pending_frame (pool : List Peer) (rng : Nat → Nat)
    (timeAt : Nat → Int) :
    ∀ (bs : List (List Hash)) (i : Nat) (st stf : DState Peer)
      (msgs : List (SentMsg Peer)) (k : Hash),
      dispatch_go pool rng timeAt i st bs = some (stf, msgs) →
      (∀ b, b ∈ bs → k ∉ b) →
      lookupA k stf.pending = lookupA k st.pending := by
  intro bs
  induction bs with
  | nil =>
    intro i st stf msgs k h _
    simp only [dispatch_go, Option.some.injEq, Prod.mk.injEq] at h
    obtain ⟨h1, _⟩ := h
    subst h1
    rfl
  | cons batch rest ih =>
    intro i st stf msgs k h hk
    rw [dispatch_go_cons] at h
    rcases hp : get_idle_peer pool st.busy (rng i) with _ | peer
    · simp [hp] at h
    · simp only [hp] at h
      rcases hd : dispatch_go pool rng timeAt (i + 1)
          { st with
              pending := write_all batch (timeAt i) st.pending,
              busy := insertA peer (timeAt i) st.busy } rest with _ | res
      · simp [hd] at h
      · obtain ⟨stMid', msgs'⟩ := res
        simp only [hd, Option.some.injEq, Prod.mk.injEq] at h
        obtain ⟨h1, _⟩ := h
        subst h1
        have hrest := ih (i + 1) _ _ _ k hd
          (fun b hb => hk b (List.mem_cons_of_mem _ hb))
        rw [hrest]
        exact lookupA_write_all_not_mem k (timeAt i) batch st.pending
          (hk batch (List.mem_cons_self _ _))

end DispatcherLemmas

section SharedLemmas

variable {Peer : Type} [DecidableEq Peer]

theorem request_nodes_nil (pool : List Peer) (rng : Nat → Nat)
    (timeAt : Nat → Int) (st : DState Peer) :
    request_nodes pool rng timeAt st [] = some (st, []) := rfl

theorem sweep_busy_mem (now : Int) (busy : List (Peer × Int)) :
    ∀ p t, (p, t) ∈ sweep_busy now busy ↔
      ((p, t) ∈ busy ∧ now - t ≤ reply_timeout) := by
  intro p t
  simp [sweep_busy, List.mem_filter]

theorem timed_out_mem (now : Int) (pending : List (Hash × Int)) :
    ∀ k, k ∈ timed_out now pending ↔
      ∃ t, (k, t) ∈ pending ∧ reply_timeout < now - t := by
  intro k
  simp only [timed_out, List.mem_map, List.mem_filter]
  constructor
  · rintro ⟨⟨k0, t⟩, ⟨hmem, hdec⟩, rfl⟩
    exact ⟨t, hmem, by simpa using hdec⟩
  · rintro ⟨t, hmem, ht⟩
    exact ⟨(k, t), ⟨hmem, by simpa using ht⟩, rfl⟩

end SharedLemmas

/-! ### Claim C1 -/

/-- C1: for every account leaf processed by `StateSync.leaf_callback`, a
storage request (`depth = 64`, parent = the leaf, no leaf callback, not raw)
is scheduled exactly once iff `storage_root ≠ BLANK_ROOT_HASH`; a code
request (`depth = 64`, `is_raw = true`) is scheduled exactly once iff
`code_hash ≠ EMPTY_SHA3`; and the number of scheduled requests is exactly
the number of non-empty fields — in particular zero when both fields equal
their empty constants. -/
theorem leaf_callback_schedule_spec (account : Account) (parent : Hash) :
    (leaf_callback account parent).count (storage_call account parent) =
      (if account.storage_root = BLANK_ROOT_HASH then 0 else 1) ∧
    (leaf_callback account parent).count (code_call account parent) =
      (if account.code_hash = EMPTY_SHA3 then 0 else 1) ∧
    (leaf_callback account parent).length =
      (if account.storage_root = BLANK_ROOT_HASH then 0 else 1) +
        (if account.code_hash = EMPTY_SHA3 then 0 else 1) := by
  by_cases h1 : account.storage_root = BLANK_ROOT_HASH <;>
    by_cases h2 : account.code_hash = EMPTY_SHA3 <;>
      simp [leaf_callback, storage_call, code_call, h1, h2, List.count_cons,
        ScheduleCall.mk.injEq]

/-! ### Claim C5 -/

/-- C5: the constructor's worker count diverges from the spec's
`max(1, logical_cpus − 1)` on a single-CPU machine: the code computes
`1 - 1 = 0` workers (and `ProcessPoolExecutor(0)` raises `ValueError`),
while the claim requires `max(1, 0) = 1`, i.e. always at least one worker.
The two agree when the count is indeterminable and whenever there are at
least two CPUs. -/
theorem cpu_worker_count_diverges :
    cpu_worker_count (some 1) = 0 ∧
    spec_worker_count (some 1) = 1 ∧
    cpu_worker_count none = spec_worker_count none ∧
    ∀ n : Nat, cpu_worker_count (some (n + 2)) = spec_worker_count (some (n + 2)) := by
  refine ⟨rfl, rfl, rfl, ?_⟩
  intro n
  simp [cpu_worker_count, spec_worker_count]

/-! ### Claim C2 -/

/-- C2: on one pass of the timeout sweeper, the peer-busy table keeps
exactly the entries whose age does not exceed `_reply_timeout` (so every
entry older than the timeout is removed); the collected in-flight keys are
exactly those whose age exceeds `_reply_timeout`; the pass re-dispatches
exactly that collection through `request_nodes`, starting from the swept
state with `_total_timeouts` already increased by the number of collected
entries; the final counter is increased by exactly that number; and the
in-flight entry of every non-collected key is left untouched. -/
theorem retry_pass_spec {Peer : Type} [DecidableEq Peer] (pool : List Peer)
    (rng : Nat → Nat) (timeAt : Nat → Int) (now : Int)
    (st st' : DState Peer) (msgs : List (SentMsg Peer))
    (h : retry_timedout_pass pool rng timeAt now st = some (st', msgs)) :
    (∀ p t, (p, t) ∈ sweep_busy now st.busy ↔
      ((p, t) ∈ st.busy ∧ now - t ≤ reply_timeout)) ∧
    (∀ k, k ∈ timed_out now st.pending ↔
      ∃ t, (k, t) ∈ st.pending ∧ reply_timeout < now - t) ∧
    request_nodes pool rng timeAt
      { st with
          busy := sweep_busy now st.busy,
          totalTimeouts :=
            st.totalTimeouts + (timed_out now st.pending).length }
      (timed_out now st.pending) = some (st', msgs) ∧
    st'.totalTimeouts = st.totalTimeouts + (timed_out now st.pending).length ∧
    (∀ k, k ∉ timed_out now st.pending →
      lookupA k st'.pending = lookupA k st.pending) := by
  by_cases he : timed_out now st.pending = []
  · have hval : retry_timedout_pass pool rng timeAt now st =
        some ({ st with busy := sweep_busy now st.busy }, []) := by
      simp only [retry_timedout_pass]
      rw [if_pos he]
    rw [hval] at h
    simp only [Option.some.injEq, Prod.mk.injEq] at h
    obtain ⟨h1, h2⟩ := h
    subst h1
    subst h2
    refine ⟨sweep_busy_mem now st.busy, timed_out_mem now st.pending, ?_, ?_, ?_⟩
    · rw [he]
      rfl
    · rw [he]
      rfl
    · intro k _
      rfl
  · have hval : retry_timedout_pass pool rng timeAt now st =
        request_nodes pool rng timeAt
          { st with
              busy := sweep_busy now st.busy,
              totalTimeouts :=
                st.totalTimeouts + (timed_out now st.pending).length }
          (timed_out now st.pending) := by
      simp only [retry_timedout_pass]
      rw [if_neg he]
    rw [hval] at h
    refine ⟨sweep_busy_mem now st.busy, timed_out_mem now st.pending, h, ?_, ?_⟩
    · unfold request_nodes at h
      have hc := (dispatch_go_counters pool rng timeAt _ 0 _ _ _ h).2.2
      exact hc
    · intro k hk
      unfold request_nodes at h
      have hnotin : ∀ b, b ∈ partition_all MAX_STATE_FETCH (timed_out now st.pending) →
          k ∉ b := by
        intro b hb hkb
        exact hk (mem_of_mem_partition_all MAX_STATE_FETCH _ b hb k hkb)
      have hfr := dispatch_go_pending_frame pool rng timeAt _ 0 _ _ _ k h hnotin
      exact hfr

/-- Concrete instance of C2: at `now = 100`, with busy peers stamped at 50
(timed out) and 90 (kept), and in-flight keys stamped at 70 (timed out) and
95 (kept), the pass drops peer 0, collects key 5, counts one timeout, and
re-dispatches key 5 to the idle peer 2. -/
theorem retry_pass_spec_witness :
    (∀ p t, (p, t) ∈ sweep_busy 100 ([(0, 50), (1, 90)] : List (Nat × Int)) ↔
      ((p, t) ∈ ([(0, 50), (1, 90)] : List (Nat × Int)) ∧ 100 - t ≤ reply_timeout)) ∧
    (∀ k, k ∈ timed_out 100 [(5, 70), (6, 95)] ↔
      ∃ t, (k, t) ∈ ([(5, 70), (6, 95)] : List (Hash × Int)) ∧
        reply_timeout < 100 - t) ∧
    request_nodes [1, 2] (fun _ => 0) (fun _ => 100)
      { pending := [(5, 70), (6, 95)], busy := sweep_busy 100 [(0, 50), (1, 90)],
        sched := ⟨[], []⟩, totalProcessedNodes := 0,
        totalTimeouts := 0 + (timed_out 100 [(5, 70), (6, 95)]).length }
      (timed_out 100 [(5, 70), (6, 95)]) =
      some (⟨[(5, 100), (6, 95)], [(1, 90), (2, 100)], ⟨[], []⟩, 0, 1⟩, [⟨2, [5]⟩]) ∧
    (⟨[(5, 100), (6, 95)], [(1, 90), (2, 100)], ⟨[], []⟩, 0, 1⟩ :
        DState Nat).totalTimeouts =
      0 + (timed_out 100 [(5, 70), (6, 95)]).length ∧
    (∀ k, k ∉ timed_out 100 [(5, 70), (6, 95)] →
      lookupA k ((⟨[(5, 100), (6, 95)], [(1, 90), (2, 100)], ⟨[], []⟩, 0, 1⟩ :
        DState Nat).pending) = lookupA k [(5, 70), (6, 95)]) :=
  retry_pass_spec [1, 2] (fun _ => 0) (fun _ => 100) 100
    ⟨[(5, 70), (6, 95)], [(0, 50), (1, 90)], ⟨[], []⟩, 0, 0⟩
    ⟨[(5, 100), (6, 95)], [(1, 90), (2, 100)], ⟨[], []⟩, 0, 1⟩
    [⟨2, [5]⟩] rfl

/-! ### Claim C3 -/

/-- C3: `request_nodes` partitions its hashes into consecutive batches of at
most `MAX_STATE_FETCH` (their concatenation is the original list); on a
completed dispatch the sent messages carry exactly those batches in order,
and the run is a `DispatchRun`: each batch awaited a then-idle peer, every
hash of the batch was stamped in the in-flight table with the batch's clock
reading taken before the send, and the peer was marked busy with that same
stamp. -/
theorem request_nodes_spec {Peer : Type} [DecidableEq Peer] (pool : List Peer)
    (rng : Nat → Nat) (timeAt : Nat → Int) (st st' : DState Peer)
    (keys : List Hash) (msgs : List (SentMsg Peer))
    (h : request_nodes pool rng timeAt st keys = some (st', msgs)) :
    (∀ b, b ∈ partition_all MAX_STATE_FETCH keys → b.length ≤ MAX_STATE_FETCH) ∧
    (partition_all MAX_STATE_FETCH keys).flatten = keys ∧
    msgs.map SentMsg.batch = partition_all MAX_STATE_FETCH keys ∧
    DispatchRun pool rng timeAt st 0 msgs st' := by
  unfold request_nodes at h
  obtain ⟨hrun, hb⟩ := dispatch_go_run pool rng timeAt _ 0 st st' msgs h
  exact ⟨fun b hb' =>
      length_le_of_mem_partition_all MAX_STATE_FETCH (by decide) keys b hb',
    join_partition_all _ keys, hb, hrun⟩

/-- Concrete instance of C3: dispatching keys `[1, 2]` from an empty state
with a single idle peer 0 at time 100 sends one batch `[1, 2]` and stamps
both keys and the peer with 100. -/
theorem request_nodes_spec_witness :
    (∀ b, b ∈ partition_all MAX_STATE_FETCH [1, 2] →
      b.length ≤ MAX_STATE_FETCH) ∧
    (partition_all MAX_STATE_FETCH [1, 2]).flatten = [1, 2] ∧
    ([⟨0, [1, 2]⟩] : List (SentMsg Nat)).map SentMsg.batch =
      partition_all MAX_STATE_FETCH [1, 2] ∧
    DispatchRun [0] (fun _ => 0) (fun _ => 100)
      ⟨[], [], ⟨[], []⟩, 0, 0⟩ 0 [⟨0, [1, 2]⟩]
      ⟨[(1, 100), (2, 100)], [(0, 100)], ⟨[], []⟩, 0, 0⟩ :=
  request_nodes_spec [0] (fun _ => 0) (fun _ => 100)
    ⟨[], [], ⟨[], []⟩, 0, 0⟩
    ⟨[(1, 100), (2, 100)], [(0, 100)], ⟨[], []⟩, 0, 0⟩
    [1, 2] [⟨0, [1, 2]⟩] rfl

/-! ### Claim C10 -/

/-- C10: dispatching an empty list of hashes is a complete no-op — it
completes immediately (even when no peer is idle, so no idle peer is
awaited), sends no message, and returns the state unchanged (in particular
the in-flight and peer-busy tables). -/
theorem request_nodes_empty_noop {Peer : Type} [DecidableEq Peer]
    (pool : List Peer) (rng : Nat → Nat) (timeAt : Nat → Int)
    (st : DState Peer) :
    request_nodes pool rng timeAt st [] = some (st, []) := rfl

/-! ### Claim C4 -/

/-- C4: on a `NodeData` message the handler clears the sender's busy-table
entry when present (and accepts the message without error either way,
leaving other peers' entries alone), calls `scheduler.process` with the
pair `(keccak256(blob), blob)` for each blob, one pair at a time and in
order — any `AlreadyProcessed` being swallowed so that all remaining blobs
are still handled — and removes each blob's hash from the in-flight table,
tolerating its absence. -/
theorem handle_node_data_spec {Peer : Type} [DecidableEq Peer]
    (keccak : Blob → Hash) (st : DState Peer) (peer : Peer)
    (blobs : List Blob)
    (hb : (st.busy.map Prod.fst).Nodup)
    (hp : (st.pending.map Prod.fst).Nodup) :
    ∃ stf calls,
      handle_msg keccak st peer (Cmd.nodeData blobs) = some (stf, calls) ∧
      lookupA peer stf.busy = none ∧
      (∀ q, q ≠ peer → lookupA q stf.busy = lookupA q st.busy) ∧
      calls = blobs.map (fun b => (keccak b, b)) ∧
      (∀ b, b ∈ blobs → lookupA (keccak b) stf.pending = none) ∧
      (∀ k, k ∉ blobs.map keccak →
        lookupA k stf.pending = lookupA k st.pending) := by
  obtain ⟨stf, calls, h1, h2, h3, _, _, h6⟩ :=
    node_data_loop_spec keccak blobs { st with busy := eraseA peer st.busy }
  refine ⟨stf, calls, h1, ?_, ?_, h2, ?_, ?_⟩
  · rw [h3]
    exact lookupA_eraseA_self peer st.busy hb
  · intro q hq
    rw [h3]
    exact lookupA_eraseA_ne peer q hq st.busy
  · intro b hbmem
    rw [h6]
    exact lookupA_erase_all_mem (keccak b) (blobs.map keccak) st.pending hp
      (List.mem_map_of_mem keccak hbmem)
  · intro k hk
    rw [h6]
    exact lookupA_erase_all_not_mem k (blobs.map keccak) st.pending hk

/-- Concrete instance of C4: a `NodeData` message with blobs `[9]` and `[7]`
from busy peer 3, where hash 9 is scheduled and in flight and hash 5 stays
in flight (its blob did not arrive). -/
theorem handle_node_data_spec_witness :
    ∃ stf calls,
      handle_msg (fun b : Blob => b.headD 0)
        (⟨[(5, 10), (9, 11)], [(3, 50)], ⟨[9], []⟩, 0, 0⟩ : DState Nat) 3
        (Cmd.nodeData [[9], [7]]) = some (stf, calls) ∧
      lookupA 3 stf.busy = none ∧
      (∀ q, q ≠ 3 → lookupA q stf.busy =
        lookupA q ([(3, 50)] : List (Nat × Int))) ∧
      calls = [[9], [7]].map (fun b => ((fun b : Blob => b.headD 0) b, b)) ∧
      (∀ b, b ∈ [[9], [7]] →
        lookupA ((fun b : Blob => b.headD 0) b) stf.pending = none) ∧
      (∀ k, k ∉ [[9], [7]].map (fun b : Blob => b.headD 0) →
        lookupA k stf.pending =
          lookupA k ([(5, 10), (9, 11)] : List (Hash × Int))) :=
  handle_node_data_spec (fun b : Blob => b.headD 0)
    ⟨[(5, 10), (9, 11)], [(3, 50)], ⟨[9], []⟩, 0, 0⟩ 3 [[9], [7]]
    (by decide) (by decide)

/-! ### Claim C6 -/

/-- C6 counterexample: a blob `[7]` whose hash 7 does not match the key 5
it was requested under does NOT make processing fail with `BadNode`, and
the reply is NOT dropped: the handler completes and passes `(7, [7])` to
the scheduler (under the blob's own hash). The in-flight entry for the
requested key 5 does remain, as the claim says. -/
theorem mismatched_blob_not_dropped :
    (fun b : Blob => b.headD 0) [7] ≠ (5 : Hash) ∧
    lookupA (5 : Hash) ([(5, 0)] : List (Hash × Int)) = some 0 ∧
    handle_msg (fun b : Blob => b.headD 0)
      (⟨[(5, 0)], [], ⟨[5], []⟩, 0, 0⟩ : DState Nat) 0
      (Cmd.nodeData [[7]]) ≠ none ∧
    (∃ stf calls,
      handle_msg (fun b : Blob => b.headD 0)
        (⟨[(5, 0)], [], ⟨[5], []⟩, 0, 0⟩ : DState Nat) 0
        (Cmd.nodeData [[7]]) = some (stf, calls) ∧
      calls = [(7, [7])] ∧
      lookupA (5 : Hash) stf.pending = some 0) := by
  refine ⟨by decide, rfl, by decide, ⟨[(5, 0)], [], ⟨[5], []⟩, 1, 0⟩,
    [(7, [7])], rfl, rfl, rfl⟩

/-- C6 as amended: when no received blob hashes to the requested key `K`,
the handler never passes any blob to the scheduler under `K` (every
`process` call is keyed by the blob's own hash, so the scheduler's hash
check cannot fire), the reply is fully handled rather than dropped, and the
in-flight entry for `K` remains untouched, to be retried by the timeout
sweeper. -/
theorem mismatched_blob_processed_under_own_hash {Peer : Type}
    [DecidableEq Peer] (keccak : Blob → Hash) (st : DState Peer)
    (peer : Peer) (blobs : List Blob) (K : Hash)
    (hK : K ∉ blobs.map keccak) :
    ∃ stf calls,
      handle_msg keccak st peer (Cmd.nodeData blobs) = some (stf, calls) ∧
      calls = blobs.map (fun b => (keccak b, b)) ∧
      (∀ b, (K, b) ∉ calls) ∧
      lookupA K stf.pending = lookupA K st.pending := by
  obtain ⟨stf, calls, h1, h2, _, _, _, h6⟩ :=
    node_data_loop_spec keccak blobs { st with busy := eraseA peer st.busy }
  refine ⟨stf, calls, h1, h2, ?_, ?_⟩
  · intro b hmem
    rw [h2] at hmem
    obtain ⟨b', hb', heq⟩ := List.mem_map.mp hmem
    injection heq with e1 e2
    exact hK (e1 ▸ List.mem_map_of_mem keccak hb')
  · rw [h6]
    exact lookupA_erase_all_not_mem K (blobs.map keccak) st.pending hK

/-- Concrete instance of the amended C6: requested key 5 stays in flight and
is never fed to the scheduler when only the mismatching blob `[7]`
arrives. -/
theorem mismatched_blob_processed_under_own_hash_witness :
    ∃ stf calls,
      handle_msg (fun b : Blob => b.headD 0)
        (⟨[(5, 1)], [], ⟨[5], []⟩, 0, 0⟩ : DState Nat) 2
        (Cmd.nodeData [[7]]) = some (stf, calls) ∧
      calls = [(7, [7])] ∧
      (∀ b, ((5 : Hash), b) ∉ calls) ∧
      lookupA (5 : Hash) stf.pending =
        lookupA (5 : Hash) ([(5, 1)] : List (Hash × Int)) :=
  mismatched_blob_processed_under_own_hash (fun b : Blob => b.headD 0)
    ⟨[(5, 1)], [], ⟨[5], []⟩, 0, 0⟩ 2 [[7]] 5 (by decide)

/-! ### Claim C7 -/

/-- C7: the idle-peer set is exactly the subscribed peers minus the peers
recorded in the busy table; the picker blocks (returns nothing yet, rather
than failing) exactly while that set is empty; and any peer it returns is a
subscribed peer with no busy-table entry at the moment of selection. -/
theorem get_idle_peer_spec {Peer : Type} [DecidableEq Peer]
    (pool : List Peer) (busy : List (Peer × Int)) (rng : Nat) :
    (∀ p, p ∈ idle_peers pool busy ↔ (p ∈ pool ∧ lookupA p busy = none)) ∧
    (get_idle_peer pool busy rng = none ↔ idle_peers pool busy = []) ∧
    (∀ p, get_idle_peer pool busy rng = some p →
      p ∈ pool ∧ lookupA p busy = none) := by
  have hmem : ∀ p, p ∈ idle_peers pool busy ↔
      (p ∈ pool ∧ lookupA p busy = none) := by
    intro p
    simp [idle_peers, List.mem_filter, Option.isNone_iff_eq_none]
  refine ⟨hmem, ?_, ?_⟩
  · constructor
    · intro h
      rcases hl : idle_peers pool busy with _ | ⟨q, qs⟩
      · rfl
      · unfold get_idle_peer at h
        rw [hl] at h
        simp at h
    · intro h
      unfold get_idle_peer
      rw [h]
  · intro p hp
    exact (hmem p).mp (get_idle_peer_mem pool busy rng p hp)

/-- Concrete instance of C7: with subscribed peers 0 and 1 and peer 1 busy,
the picker returns peer 0, which is subscribed and not busy. -/
theorem get_idle_peer_spec_witness :
    (0 : Nat) ∈ [0, 1] ∧
      lookupA (0 : Nat) ([(1, 5)] : List (Nat × Int)) = none :=
  (get_idle_peer_spec [0, 1] [(1, 5)] 0).2.2 0 rfl

/-! ### Claim C8 -/

/-- C8: handling any non-`NodeData` command changes nothing: the handler
succeeds, the scheduler's request set and committed nodes, the in-flight
table, the peer-busy table and both progress counters are exactly as
before, and no `process` call is made. -/
theorem handle_non_node_data_frame {Peer : Type} [DecidableEq Peer]
    (keccak : Blob → Hash) (st : DState Peer) (peer : Peer) (tag : Nat) :
    ∃ r, handle_msg keccak st peer (Cmd.other tag) = some r ∧
      r.1.sched.requests = st.sched.requests ∧
      r.1.sched.committed = st.sched.committed ∧
      r.1.pending = st.pending ∧
      r.1.busy = st.busy ∧
      r.1.totalProcessedNodes = st.totalProcessedNodes ∧
      r.1.totalTimeouts = st.totalTimeouts ∧
      r.2 = [] :=
  ⟨(st, []), rfl, rfl, rfl, rfl, rfl, rfl, rfl, rfl⟩

/-! ### Claim C9 -/

/-- C9: a `NodeData` message always increases `_total_processed_nodes` by
exactly the number of blobs in the message — every blob is counted,
including those the scheduler rejects with `AlreadyProcessed` (duplicates
and never-requested hashes). -/
theorem total_processed_counts_all_blobs {Peer : Type} [DecidableEq Peer]
    (keccak : Blob → Hash) (st : DState Peer) (peer : Peer)
    (blobs : List Blob) :
    ∃ stf calls,
      handle_msg keccak st peer (Cmd.nodeData blobs) = some (stf, calls) ∧
      stf.totalProcessedNodes = st.totalProcessedNodes + blobs.length := by
  obtain ⟨stf, calls, h1, _, _, _, h5, _⟩ :=
    node_data_loop_spec keccak blobs { st with busy := eraseA peer st.busy }
  exact ⟨stf, calls, h1, h5⟩

end PyEvmStateSync

